import Mathlib

/-!
Shallow embedding of the `footballsim` repository (round-robin tournament
simulator) and proofs about the claims of its specification.

Conventions of the embedding:
* Python `int` fields become `ℤ`; Python `float` arithmetic is modelled by `ℝ`
  (the transform functions are genuinely real-valued); exact division of two
  ints (`/`) becomes `ℚ` where the quotient is the result type.
* Pydantic models (frozen) become Lean structures; `model_copy(update=...)`
  becomes structure update.
* The process-global `random` module is modelled by explicit streams threaded
  through the functions that consume draws: a stream of booleans for the
  `random.random() < 0.5` coin flips of the scheduler, and a stream of reals
  (the unit-interval draws) for the Poisson sampler.
* Python `assert`/`raise` paths are modelled with `Except String`.
-/

namespace Footballsim

/-- Modelled from the spec: the module `models/constants.py` is imported by
`models/helpers.py`, `models/team.py` and `models/standings.py` but is missing
from the repository snapshot.  The spec fixes the baseline expected-goals
constant at roughly 1.3 (`expected_goals(0) = C`, "≈1.3 expected goals for
exactly equal sides"). -/
noncomputable def XG_CONSTANT : ℝ := 1.3

/-- Modelled from the spec: `models/constants.py` is missing from the snapshot.
The spec only requires a "tunable growth factor `F > 1`"; we fix 2. -/
noncomputable def XG_FACTOR : ℝ := 2

/-- Modelled from the spec: `models/constants.py` is missing from the snapshot.
The spec speaks of "the configured win-points value"; we use the standard 3. -/
def WIN_POINTS : ℤ := 3

/-- Modelled from the spec: `models/constants.py` is missing from the snapshot.
Standard football draw points. -/
def DRAW_POINTS : ℤ := 1

/-- Source `models/helpers.py`: `calculate_xg(strength_diff) = XG_CONSTANT * XG_FACTOR**strength_diff`. -/
noncomputable def calculate_xg (strength_diff : ℝ) : ℝ :=
  XG_CONSTANT * XG_FACTOR ^ strength_diff

/-- Source `models/helpers.py`: `calculate_strength_diff(xg) = math.log(xg / XG_CONSTANT, XG_FACTOR)`;
Python's two-argument `math.log(x, b)` is `log x / log b`. -/
noncomputable def calculate_strength_diff (xg : ℝ) : ℝ :=
  Real.log (xg / XG_CONSTANT) / Real.log XG_FACTOR

/-- Source `models/team.py`: class `Team`, fields `name`, `attack`, `defense`. -/
structure Team where
  name : String
  attack : ℤ := 0
  defense : ℤ := 0
deriving DecidableEq, Repr

/-- Source `models/team.py`: `Team.strength = (attack + defense) / 2` (Python true division). -/
def Team.strength (t : Team) : ℚ := ((t.attack : ℚ) + t.defense) / 2

/-- Source `models/team.py`: `Team.from_strength(name, strength, ad_difference)`. -/
def Team.from_strength (name : String) (strength : ℤ) (ad_difference : ℤ) : Team :=
  { name := name, attack := strength + ad_difference, defense := strength - ad_difference }

/-- Source `models/match_result.py`: class `Result`, two goal counts. -/
structure Result where
  home_goals : ℤ
  away_goals : ℤ
deriving DecidableEq, Repr

/-- Source `models/match_result.py`: `Result.is_win` (home perspective). -/
def Result.is_win (r : Result) : Bool := r.away_goals < r.home_goals

/-- Source `models/match_result.py`: `Result.is_draw`. -/
def Result.is_draw (r : Result) : Bool := r.home_goals == r.away_goals

/-- Source `models/match_result.py`: `Result.is_loss`. -/
def Result.is_loss (r : Result) : Bool := r.home_goals < r.away_goals

/-- Source `models/match_result.py`: class `MatchResult`, wrapping a full-time `Result`. -/
structure MatchResult where
  full_time : Result
deriving DecidableEq, Repr

/-- Source `models/match.py`: class `Match`: two teams and an optional result. -/
structure Match where
  home_team : Team
  away_team : Team
  result : Option MatchResult := none
deriving DecidableEq, Repr

/-- Source `models/match.py`: `Match.home_xg = calculate_xg(home_team.attack - away_team.defense)`. -/
noncomputable def Match.home_xg (m : Match) : ℝ :=
  calculate_xg ((m.home_team.attack - m.away_team.defense : ℤ) : ℝ)

/-- Source `models/match.py`: `Match.away_xg = calculate_xg(away_team.attack - home_team.defense)`. -/
noncomputable def Match.away_xg (m : Match) : ℝ :=
  calculate_xg ((m.away_team.attack - m.home_team.defense : ℤ) : ℝ)

/-- Source `models/match.py`: `Match.get_away_match` swaps home and away via `model_copy`
(the Python `assert not self.result` guard holds at every call site, where the
match is freshly constructed without a result). -/
def Match.get_away_match (m : Match) : Match :=
  { m with home_team := m.away_team, away_team := m.home_team }

/-! ### Claims C2, C7, C10: the strength transform and the strength factory -/

/-- Concrete teams used by the examples of the spec: contestant A with
attack 2, defense 0, and contestant B with attack 0, defense 0. -/
def teamA : Team := { name := "A", attack := 2, defense := 0 }

def teamB : Team := { name := "B", attack := 0, defense := 0 }

/-- The match of the spec example for claim C7: A at home against B, unplayed. -/
def matchAB : Match := { home_team := teamA, away_team := teamB }

/-- C2: for every real strength differential `d`,
`calculate_strength_diff (calculate_xg d) = d`.  In the real-number model the
round trip is exact, which is stronger than the claimed 1e-9 floating
tolerance. -/
theorem xg_roundtrip (d : ℝ) : calculate_strength_diff (calculate_xg d) = d := by
  unfold calculate_strength_diff calculate_xg XG_CONSTANT XG_FACTOR
  rw [mul_div_cancel_left₀ _ (by norm_num : (1.3:ℝ) ≠ 0)]
  rw [Real.log_rpow (by norm_num : (0:ℝ) < 2)]
  field_simp

/-- C7 counterexample: in the spec's example match (A: attack 2 defense 0 at
home, B: attack 0 defense 0 away) the away expected goals do NOT equal
`calculate_xg (-2)`: the code computes `away_team.attack - home_team.defense
= 0 - 0 = 0`, and `calculate_xg 0 = XG_CONSTANT ≠ XG_CONSTANT * XG_FACTOR⁻²`. -/
theorem away_xg_ne_xg_neg_two : matchAB.away_xg ≠ calculate_xg (-2) := by
  unfold matchAB Match.away_xg teamA teamB calculate_xg XG_CONSTANT XG_FACTOR
  norm_num

/-- C7 amended: in the example match, home expected goals equal
`calculate_xg 2` and away expected goals equal `calculate_xg 0` (the away
strength differential is `B.attack - A.defense = 0`, not `-2`). -/
theorem example_match_xg :
    matchAB.home_xg = calculate_xg 2 ∧ matchAB.away_xg = calculate_xg 0 := by
  constructor
  · unfold matchAB Match.home_xg teamA teamB
    norm_num
  · unfold matchAB Match.away_xg teamA teamB
    norm_num

/-- C10: `Team.from_strength name s d` has attack `s + d`, defense `s - d`,
and its derived `strength` is exactly `s` (the halves cancel in exact
rational arithmetic, which models Python's float division of the two ints). -/
theorem from_strength_roundtrip (name : String) (s d : ℤ) :
    (Team.from_strength name s d).attack = s + d ∧
    (Team.from_strength name s d).defense = s - d ∧
    (Team.from_strength name s d).strength = (s : ℚ) := by
  refine ⟨rfl, rfl, ?_⟩
  unfold Team.from_strength Team.strength
  push_cast
  ring

/-! ### Claims C1, C8: the match simulator (`simulation.py`)

The process-global `random.random()` is modelled as a stream `s : ℕ → ℝ` of
unit-interval draws together with the index of the next unconsumed draw.
Python's `while product >= limit` loop is not structurally bounded, so the
sampler carries explicit fuel; `none` models a loop that has not yet finished
after `fuel` iterations. -/

/-- Loop of `poisson` in `simulation.py`:
`while product >= limit: product *= random(); result += 1`.
Returns the counter together with the index of the next unconsumed draw. -/
noncomputable def poissonGo (limit : ℝ) (s : ℕ → ℝ) :
    ℕ → ℕ → ℕ → ℝ → Option (ℕ × ℕ)
  | fuel, result, idx, product =>
    if product < limit then some (result, idx)
    else
      match fuel with
      | 0 => none
      | fuel' + 1 => poissonGo limit s fuel' (result + 1) (idx + 1) (product * s idx)

/-- Source `simulation.py`: `poisson(n)`: `limit = exp(-n); product = random(); ...`
(Knuth's algorithm). -/
noncomputable def poisson (fuel : ℕ) (n : ℝ) (s : ℕ → ℝ) (idx : ℕ) :
    Option (ℕ × ℕ) :=
  poissonGo (Real.exp (-n)) s fuel 0 (idx + 1) (s idx)

/-- Source `simulation.py`: `_simulate` registered for `Match`: draw the two goal
counts from the Poisson sampler at the two expected-goals values and return a
copy of the match with the fresh result.  Note: the source performs no check
whatsoever on `match.result`. -/
noncomputable def simulateMatch (fuel : ℕ) (m : Match) (s : ℕ → ℝ) (idx : ℕ) :
    Option (Match × ℕ) :=
  match poisson fuel m.home_xg s idx with
  | none => none
  | some (hg, idx₁) =>
    match poisson fuel m.away_xg s idx₁ with
    | none => none
    | some (ag, idx₂) =>
      some ({ m with result := some ⟨⟨(hg : ℤ), (ag : ℤ)⟩⟩ }, idx₂)

/-- On the all-zero stream the sampler exits its loop immediately with 0. -/
theorem poisson_zero_stream (fuel : ℕ) (n : ℝ) (idx : ℕ) :
    poisson fuel n (fun _ => 0) idx = some (0, idx + 1) := by
  unfold poisson poissonGo
  rw [if_pos (Real.exp_pos _)]

/-- The match of claim C1: the example match already carrying a 3-1 result. -/
def resultedMatch : Match :=
  { home_team := teamA, away_team := teamB, result := some ⟨⟨3, 1⟩⟩ }

/-- C1 counterexample: simulating a match that already has a result does not
fail; on the all-zero draw stream the simulator returns the match with a fresh
0-0 result, replacing the prior 3-1 result. -/
theorem simulate_resulted_match_succeeds :
    simulateMatch 0 resultedMatch (fun _ => 0) 0 =
      some ({ resultedMatch with result := some ⟨⟨0, 0⟩⟩ }, 2) := by
  unfold simulateMatch
  simp only [poisson_zero_stream]
  norm_num

/-- C1 amended: `_simulate` on a `Match` never inspects the existing result:
simulating any match is the same as simulating the match with its result
cleared, so an existing result is silently replaced rather than protected by
a precondition error. -/
theorem simulate_ignores_existing_result (fuel : ℕ) (m : Match) (s : ℕ → ℝ)
    (idx : ℕ) :
    simulateMatch fuel m s idx = simulateMatch fuel { m with result := none } s idx :=
  rfl

/-- C8: the simulator is a deterministic function of the match's teams and the
random stream: two unresulted copies of the same pairing simulated from the
same stream state (and the same loop fuel) give identical outcomes. -/
theorem simulate_deterministic (fuel : ℕ) (m₁ m₂ : Match) (s : ℕ → ℝ) (idx : ℕ)
    (hh : m₁.home_team = m₂.home_team) (ha : m₁.away_team = m₂.away_team)
    (h₁ : m₁.result = none) (h₂ : m₂.result = none) :
    simulateMatch fuel m₁ s idx = simulateMatch fuel m₂ s idx := by
  obtain ⟨x₁, y₁, r₁⟩ := m₁
  obtain ⟨x₂, y₂, r₂⟩ := m₂
  simp only at hh ha h₁ h₂
  subst hh; subst ha; subst h₁; subst h₂
  rfl

/-- Witness for C8 at a concrete input: two copies of the example match on the
all-zero stream. -/
theorem simulate_deterministic_witness :
    matchAB.home_team = matchAB.home_team ∧ matchAB.away_team = matchAB.away_team ∧
    matchAB.result = none ∧
    simulateMatch 0 matchAB (fun _ => 0) 0 = simulateMatch 0 matchAB (fun _ => 0) 0 :=
  ⟨rfl, rfl, rfl, simulate_deterministic 0 matchAB matchAB (fun _ => 0) 0 rfl rfl rfl rfl⟩

/-! ### Standings (`models/standings.py`)

Python `assert`s are modelled with a value-level exception type so that the
error-handling claims can be stated; `PyExcept.error` is a raised
`AssertionError`. -/

/-- Outcome of a Python call that may raise. -/
inductive PyExcept (α : Type) where
  | ok (val : α)
  | error (msg : String)
deriving DecidableEq, Repr

/-- Source `PyExcept` sequencing: propagate a raised error. -/
def PyExcept.bind {α β : Type} (x : PyExcept α) (f : α → PyExcept β) : PyExcept β :=
  match x with
  | .ok v => f v
  | .error e => .error e

/-- Source `models/standings.py`: class `TeamStanding` (stored fields; the Python
computed fields are modelled as functions below). -/
structure TeamStanding where
  team : Team
  position : ℤ := 1
  wins : ℤ := 0
  draws : ℤ := 0
  losses : ℤ := 0
  goals_scored : ℤ := 0
  goals_conceded : ℤ := 0
deriving DecidableEq, Repr

/-- Source `TeamStanding.matches_played = wins + draws + losses`. -/
def TeamStanding.matches_played (s : TeamStanding) : ℤ := s.wins + s.draws + s.losses

/-- Source `TeamStanding.goals_difference = goals_scored - goals_conceded`. -/
def TeamStanding.goals_difference (s : TeamStanding) : ℤ :=
  s.goals_scored - s.goals_conceded

/-- Source `TeamStanding.points = WIN_POINTS * wins + DRAW_POINTS * draws`. -/
def TeamStanding.points (s : TeamStanding) : ℤ :=
  WIN_POINTS * s.wins + DRAW_POINTS * s.draws

/-- Source `models/helpers.py`: `default_tie_breakers(standing) = (points,
goals_difference, goals_scored)`, a Python tuple compared lexicographically. -/
def default_tie_breakers (s : TeamStanding) : ℤ ×ₗ (ℤ ×ₗ ℤ) :=
  toLex (s.points, toLex (s.goals_difference, s.goals_scored))

/-- Source `TeamStanding.__add__`: add the five aggregate fields; `team` and
`position` are kept from the left operand (`model_copy` of `self`). -/
def TeamStanding.add (a b : TeamStanding) : TeamStanding :=
  { a with
    wins := a.wins + b.wins
    draws := a.draws + b.draws
    losses := a.losses + b.losses
    goals_scored := a.goals_scored + b.goals_scored
    goals_conceded := a.goals_conceded + b.goals_conceded }

/-- Source `TeamStanding.__add__` with its `assert self.team is other.team` guard
(team equality in the embedding, matching the dictionary-lookup semantics). -/
def TeamStanding.addE (a b : TeamStanding) : PyExcept TeamStanding :=
  if a.team = b.team then .ok (a.add b) else .error "assert self.team is other.team"

/-- Python `sum(deltas, start)`: left fold of `__add__`. -/
def TeamStanding.sum (start : TeamStanding) (l : List TeamStanding) : TeamStanding :=
  l.foldl TeamStanding.add start

/-- Python `sum(deltas, start)` with the `__add__` assertion propagated. -/
def TeamStanding.sumE (start : TeamStanding) : List TeamStanding → PyExcept TeamStanding
  | [] => .ok start
  | d :: ds =>
    match start.addE d with
    | .ok s => s.sumE ds
    | .error e => .error e

/-- Source `Standings.calculate_teams_delta` for a match carrying full-time result
`r` (the `assert bool(match.result)` guard is satisfied at the only call
site, which skips result-less matches): the home and away delta rows. -/
def calculate_teams_delta (m : Match) (r : Result) : TeamStanding × TeamStanding :=
  ({ team := m.home_team
     wins := if r.is_draw then 0 else if r.is_win then 1 else 0
     draws := if r.is_draw then 1 else 0
     losses := if r.is_draw then 0 else if r.is_win then 0 else if r.is_loss then 1 else 0
     goals_scored := r.home_goals
     goals_conceded := r.away_goals },
   { team := m.away_team
     wins := if r.is_draw then 0 else if r.is_win then 0 else if r.is_loss then 1 else 0
     draws := if r.is_draw then 1 else 0
     losses := if r.is_draw then 0 else if r.is_win then 1 else 0
     goals_scored := r.away_goals
     goals_conceded := r.home_goals })

/-- The deltas appended to key `t` of the `defaultdict` by one match of
`Standings.update_from_matches`: nothing for an unplayed match, the home
(then away) delta when `t` is the corresponding side. -/
def matchDeltas (t : Team) (m : Match) : List TeamStanding :=
  match m.result with
  | none => []
  | some mr =>
    let d := calculate_teams_delta m mr.full_time
    (if m.home_team = t then [d.1] else []) ++ (if m.away_team = t then [d.2] else [])

/-- Source `deltas[t]` after the match loop of `update_from_matches`: the deltas of
all matches in order. -/
def deltasFor (t : Team) (ms : List Match) : List TeamStanding :=
  ms.flatMap (matchDeltas t)

/-- Stable descending insertion: place `x` in front of the first element
whose key is less-or-equal, so that an element earlier in the original list
precedes later elements with an equal key — exactly the order of Python's
stable `sorted(..., reverse=True)`. -/
def insertDesc {α κ : Type} [LinearOrder κ] (key : α → κ) (x : α) :
    List α → List α
  | [] => [x]
  | y :: ys => if key y ≤ key x then x :: y :: ys else y :: insertDesc key x ys

/-- Stable descending sort by key, realising Python's
`sorted(team_standings, key=self.tie_breakers, reverse=True)`. -/
def sortDesc {α κ : Type} [LinearOrder κ] (key : α → κ) : List α → List α
  | [] => []
  | x :: xs => insertDesc key x (sortDesc key xs)

/-- The `enumerate` loop of `Standings._calculate_positions`: position
`i + 1` for the `i`-th sorted row. -/
def assignPositions (i : ℤ) : List TeamStanding → List TeamStanding
  | [] => []
  | st :: rest => { st with position := i } :: assignPositions (i + 1) rest

/-- Source `Standings._calculate_positions`: sort descending by the tie-break key
and assign positions starting from 1. -/
def calculate_positions {κ : Type} [LinearOrder κ] (key : TeamStanding → κ)
    (l : List TeamStanding) : List TeamStanding :=
  assignPositions 1 (sortDesc key l)

/-- Source `Standings.update_from_matches`, pure result (the asserts never fire; see
`update_from_matchesE_eq_ok`): every row is the old row plus the summed
deltas of its team, then positions are recalculated. -/
def update_from_matches {κ : Type} [LinearOrder κ] (key : TeamStanding → κ)
    (table : List TeamStanding) (ms : List Match) : List TeamStanding :=
  calculate_positions key (table.map fun st => st.sum (deltasFor st.team ms))

/-- The row loop of `Standings.update_from_matches` with assertion
propagation. -/
def updateRowsE (ms : List Match) : List TeamStanding → PyExcept (List TeamStanding)
  | [] => .ok []
  | st :: rest =>
    match st.sumE (deltasFor st.team ms) with
    | .error e => .error e
    | .ok s =>
      match updateRowsE ms rest with
      | .error e => .error e
      | .ok l => .ok (s :: l)

/-- Source `Standings.update_from_matches` with assertion propagation. -/
def update_from_matchesE {κ : Type} [LinearOrder κ] (key : TeamStanding → κ)
    (table : List TeamStanding) (ms : List Match) : PyExcept (List TeamStanding) :=
  match updateRowsE ms table with
  | .error e => .error e
  | .ok rows => .ok (calculate_positions key rows)

/-- Source `Standings.from_teams`: all-zero rows, every position set to the number
of teams. -/
def standings_from_teams (teams : List Team) : List TeamStanding :=
  teams.map fun t => { team := t, position := (teams.length : ℤ) }

section SortLemmas

variable {α κ : Type} [LinearOrder κ] (key : α → κ)

theorem insertDesc_perm (x : α) (l : List α) :
    (insertDesc key x l).Perm (x :: l) := by
  induction l with
  | nil => simp [insertDesc]
  | cons y ys ih =>
    unfold insertDesc
    by_cases h : key y ≤ key x
    · rw [if_pos h]
    · rw [if_neg h]
      exact (ih.cons y).trans (List.Perm.swap x y ys)

theorem sortDesc_perm (l : List α) : (sortDesc key l).Perm l := by
  induction l with
  | nil => simp [sortDesc]
  | cons x xs ih =>
    unfold sortDesc
    exact (insertDesc_perm key x (sortDesc key xs)).trans (ih.cons x)

theorem mem_insertDesc {x b : α} {l : List α} (h : b ∈ insertDesc key x l) :
    b = x ∨ b ∈ l := by
  have := (insertDesc_perm key x l).mem_iff.mp h
  simpa using this

theorem insertDesc_pairwise (x : α) {l : List α}
    (h : l.Pairwise (fun a b => key b ≤ key a)) :
    (insertDesc key x l).Pairwise (fun a b => key b ≤ key a) := by
  induction l with
  | nil => simp [insertDesc]
  | cons y ys ih =>
    rw [List.pairwise_cons] at h
    unfold insertDesc
    by_cases hxy : key y ≤ key x
    · rw [if_pos hxy]
      refine List.Pairwise.cons ?_ (List.Pairwise.cons h.1 h.2)
      intro b hb
      rcases List.mem_cons.mp hb with hb | hb
      · exact hb ▸ hxy
      · exact le_trans (h.1 b hb) hxy
    · rw [if_neg hxy]
      refine List.Pairwise.cons ?_ (ih h.2)
      intro b hb
      rcases mem_insertDesc key hb with hb | hb
      · exact hb ▸ le_of_lt (lt_of_not_le hxy)
      · exact h.1 b hb

theorem sortDesc_pairwise (l : List α) :
    (sortDesc key l).Pairwise (fun a b => key b ≤ key a) := by
  induction l with
  | nil => simp [sortDesc]
  | cons x xs ih => exact insertDesc_pairwise key x ih

theorem sortDesc_of_pairwise {l : List α}
    (h : l.Pairwise (fun a b => key b ≤ key a)) : sortDesc key l = l := by
  induction l with
  | nil => rfl
  | cons x xs ih =>
    rw [List.pairwise_cons] at h
    unfold sortDesc
    rw [ih h.2]
    cases xs with
    | nil => rfl
    | cons y ys =>
      unfold insertDesc
      rw [if_pos (h.1 y (List.mem_cons_self y ys))]

theorem sortDesc_eq_of_perm {l₁ l₂ : List α} (hp : l₁.Perm l₂)
    (h₁ : l₁.Pairwise (fun a b => key b ≤ key a))
    (h₂ : l₂.Pairwise (fun a b => key b ≤ key a))
    (hk : (l₁.map key).Nodup) : l₁ = l₂ := by
  have hnd₁ : l₁.Nodup := List.Nodup.of_map key hk
  have hinj := (List.nodup_map_iff_inj_on hnd₁).mp hk
  have hne₁ : l₁.Pairwise (fun a b => key a ≠ key b) := by
    refine hnd₁.imp_of_mem ?_
    intro a b ha hb hab hfe
    exact hab (hinj a ha b hb hfe)
  have hk₂ : (l₂.map key).Nodup := ((hp.map key).nodup_iff).mp hk
  have hnd₂ : l₂.Nodup := List.Nodup.of_map key hk₂
  have hinj₂ := (List.nodup_map_iff_inj_on hnd₂).mp hk₂
  have hne₂ : l₂.Pairwise (fun a b => key a ≠ key b) := by
    refine hnd₂.imp_of_mem ?_
    intro a b ha hb hab hfe
    exact hab (hinj₂ a ha b hb hfe)
  have hs₁ : l₁.Pairwise (fun a b => key b < key a) := by
    refine (h₁.and hne₁).imp ?_
    intro a b hab
    exact lt_of_le_of_ne hab.1 (Ne.symm hab.2)
  have hs₂ : l₂.Pairwise (fun a b => key b < key a) := by
    refine (h₂.and hne₂).imp ?_
    intro a b hab
    exact lt_of_le_of_ne hab.1 (Ne.symm hab.2)
  haveI : IsAntisymm α (fun a b => key b < key a) :=
    ⟨fun a b hab hba => absurd (lt_trans hab hba) (lt_irrefl _)⟩
  exact List.eq_of_perm_of_sorted hp hs₁ hs₂

theorem insertDesc_map_comm (f : α → α) (hf : ∀ a, key (f a) = key a)
    (x : α) (l : List α) :
    insertDesc key (f x) (l.map f) = (insertDesc key x l).map f := by
  induction l with
  | nil => rfl
  | cons y ys ih =>
    simp only [List.map_cons, insertDesc, hf]
    by_cases h : key y ≤ key x
    · simp [if_pos h]
    · simp [if_neg h, ih]

theorem sortDesc_map_comm (f : α → α) (hf : ∀ a, key (f a) = key a)
    (l : List α) : sortDesc key (l.map f) = (sortDesc key l).map f := by
  induction l with
  | nil => rfl
  | cons x xs ih =>
    unfold sortDesc
    rw [List.map_cons]
    show insertDesc key (f x) (sortDesc key (xs.map f)) = _
    rw [ih, insertDesc_map_comm key f hf]

end SortLemmas

/-- The position-independent content of a standings row (used to compare
tables up to the rank that `_calculate_positions` reassigns). -/
def TeamStanding.content (s : TeamStanding) : TeamStanding := { s with position := 1 }

theorem tie_breakers_content (s : TeamStanding) :
    default_tie_breakers s.content = default_tie_breakers s := rfl

theorem tie_breakers_set_position (s : TeamStanding) (p : ℤ) :
    default_tie_breakers { s with position := p } = default_tie_breakers s := rfl

theorem add_set_position (a b : TeamStanding) (p : ℤ) :
    TeamStanding.add { a with position := p } b = { a.add b with position := p } := rfl

theorem sum_set_position (l : List TeamStanding) (a : TeamStanding) (p : ℤ) :
    TeamStanding.sum { a with position := p } l = { a.sum l with position := p } := by
  induction l generalizing a with
  | nil => rfl
  | cons d ds ih =>
    show TeamStanding.sum (TeamStanding.add { a with position := p } d) ds = _
    rw [add_set_position]
    exact ih (a.add d)

theorem sum_team (a : TeamStanding) (l : List TeamStanding) :
    (a.sum l).team = a.team := by
  induction l generalizing a with
  | nil => rfl
  | cons d ds ih => exact ih (a.add d)

theorem sum_append (a : TeamStanding) (l₁ l₂ : List TeamStanding) :
    a.sum (l₁ ++ l₂) = (a.sum l₁).sum l₂ :=
  List.foldl_append TeamStanding.add a l₁ l₂

theorem assignPositions_map_content (i : ℤ) (l : List TeamStanding) :
    (assignPositions i l).map TeamStanding.content = l.map TeamStanding.content := by
  induction l generalizing i with
  | nil => rfl
  | cons st rest ih =>
    show TeamStanding.content { st with position := i } :: _ = _
    rw [ih]
    rfl

theorem assignPositions_congr {l₁ l₂ : List TeamStanding} (i : ℤ)
    (h : l₁.map TeamStanding.content = l₂.map TeamStanding.content) :
    assignPositions i l₁ = assignPositions i l₂ := by
  induction l₁ generalizing l₂ i with
  | nil => cases l₂ with
    | nil => rfl
    | cons b bs => simp at h
  | cons a as ih =>
    cases l₂ with
    | nil => simp at h
    | cons b bs =>
      simp only [List.map_cons, List.cons.injEq] at h
      show ({ a with position := i } : TeamStanding) :: _ = { b with position := i } :: _
      have hab : ({ a with position := i } : TeamStanding) = { b with position := i } := by
        have := h.1
        unfold TeamStanding.content at this
        cases a; cases b
        simp only [TeamStanding.mk.injEq] at this ⊢
        tauto
      rw [hab, ih (i + 1) h.2]

theorem assignPositions_map_key (i : ℤ) (l : List TeamStanding) :
    (assignPositions i l).map default_tie_breakers = l.map default_tie_breakers := by
  induction l generalizing i with
  | nil => rfl
  | cons st rest ih =>
    show default_tie_breakers { st with position := i } :: _ = _
    rw [tie_breakers_set_position, ih, List.map_cons]

theorem matchDeltas_team {t : Team} {m : Match} {d : TeamStanding}
    (h : d ∈ matchDeltas t m) : d.team = t := by
  unfold matchDeltas at h
  rcases hres : m.result with _ | mr
  · rw [hres] at h
    simp at h
  · rw [hres] at h
    simp only [List.mem_append] at h
    rcases h with h | h
    · by_cases hh : m.home_team = t
      · rw [if_pos hh] at h
        simp at h
        rw [h]
        exact hh
      · rw [if_neg hh] at h
        simp at h
    · by_cases ha : m.away_team = t
      · rw [if_pos ha] at h
        simp at h
        rw [h]
        exact ha
      · rw [if_neg ha] at h
        simp at h

theorem deltasFor_team {t : Team} {ms : List Match} {d : TeamStanding}
    (h : d ∈ deltasFor t ms) : d.team = t := by
  unfold deltasFor at h
  rw [List.mem_flatMap] at h
  obtain ⟨m, _, hd⟩ := h
  exact matchDeltas_team hd

theorem deltasFor_append (t : Team) (ms₁ ms₂ : List Match) :
    deltasFor t (ms₁ ++ ms₂) = deltasFor t ms₁ ++ deltasFor t ms₂ := by
  unfold deltasFor
  rw [List.flatMap_append]

theorem sumE_ok (a : TeamStanding) (l : List TeamStanding)
    (h : ∀ d ∈ l, d.team = a.team) : a.sumE l = .ok (a.sum l) := by
  induction l generalizing a with
  | nil => rfl
  | cons d ds ih =>
    unfold TeamStanding.sumE TeamStanding.addE
    rw [if_pos (h d (List.mem_cons_self d ds)).symm]
    show (a.add d).sumE ds = _
    refine ih (a.add d) ?_
    intro x hx
    show x.team = (a.add d).team
    have : (a.add d).team = a.team := rfl
    rw [this]
    exact h x (List.mem_cons_of_mem d hx)

theorem updateRowsE_ok (ms : List Match) (table : List TeamStanding) :
    updateRowsE ms table = .ok (table.map fun st => st.sum (deltasFor st.team ms)) := by
  induction table with
  | nil => rfl
  | cons st rest ih =>
    unfold updateRowsE
    rw [sumE_ok st (deltasFor st.team ms) (fun d hd => deltasFor_team hd), ih]
    rfl

theorem update_from_matchesE_eq_ok {κ : Type} [LinearOrder κ]
    (key : TeamStanding → κ) (table : List TeamStanding) (ms : List Match) :
    update_from_matchesE key table ms = .ok (update_from_matches key table ms) := by
  unfold update_from_matchesE update_from_matches
  rw [updateRowsE_ok]

/-! ### Claims C4, C5, C6: properties of the standings update -/

/-- Match A (home) 0-1 B (away): B wins away. -/
def mAB1 : Match := { home_team := teamA, away_team := teamB, result := some ⟨⟨0, 1⟩⟩ }

/-- Match B (home) 0-1 A (away): A wins away. -/
def mBA1 : Match := { home_team := teamB, away_team := teamA, result := some ⟨⟨0, 1⟩⟩ }

def teamC : Team := { name := "C" }

def teamD : Team := { name := "D" }

/-- A played match between two teams that have no row in the tables below. -/
def mCD : Match := { home_team := teamC, away_team := teamD, result := some ⟨⟨1, 0⟩⟩ }

/-- Head lemma for threading an update through `assignPositions`: position
reassignment before an update batch is invisible up to content. -/
theorem map_update_assign (ms : List Match) (i : ℤ) (l : List TeamStanding) :
    ((assignPositions i l).map fun st => st.sum (deltasFor st.team ms)).map
        TeamStanding.content =
      (l.map fun st => st.sum (deltasFor st.team ms)).map TeamStanding.content := by
  induction l generalizing i with
  | nil => rfl
  | cons st rest ih =>
    show TeamStanding.content
        (TeamStanding.sum { st with position := i } (deltasFor st.team ms)) :: _ = _
    rw [sum_set_position, ih]
    rfl

/-- Applying the `M₂` row update after the `M₁` row update equals the row
update of the concatenated batch. -/
theorem double_update_row (M₁ M₂ : List Match) (st : TeamStanding) :
    (st.sum (deltasFor st.team M₁)).sum
        (deltasFor (st.sum (deltasFor st.team M₁)).team M₂) =
      st.sum (deltasFor st.team (M₁ ++ M₂)) := by
  rw [sum_team, deltasFor_append, sum_append]

/-- C4 counterexample: folding the two batches `[mAB1]` then `[mBA1]` does
not give the same table as the combined batch: the final aggregates tie, and
the stable sort then orders the rows by the intermediate table (B first)
rather than by the original table (A first), so the assigned positions
differ. -/
theorem update_two_batches_ne_combined :
    (update_from_matchesE default_tie_breakers (standings_from_teams [teamA, teamB])
          [mAB1]).bind
        (fun t => update_from_matchesE default_tie_breakers t [mBA1]) ≠
      update_from_matchesE default_tie_breakers (standings_from_teams [teamA, teamB])
        [mAB1, mBA1] := by
  decide

/-- C4 amended: batching never raises; the two-batch table and the combined
table always contain the same rows up to the reassigned positions (equal
per-team aggregates); and whenever the final tie-break keys are pairwise
distinct the two tables are fully equal, positions included.  (The
counterexample shows equality can fail when keys tie.) -/
theorem update_batches_agree (table : List TeamStanding) (M₁ M₂ : List Match) :
    (update_from_matchesE default_tie_breakers table M₁).bind
        (fun t => update_from_matchesE default_tie_breakers t M₂) =
      .ok (update_from_matches default_tie_breakers
            (update_from_matches default_tie_breakers table M₁) M₂) ∧
    ((update_from_matches default_tie_breakers
          (update_from_matches default_tie_breakers table M₁) M₂).map
        TeamStanding.content).Perm
      ((update_from_matches default_tie_breakers table (M₁ ++ M₂)).map
        TeamStanding.content) ∧
    (((update_from_matches default_tie_breakers table (M₁ ++ M₂)).map
          default_tie_breakers).Nodup →
      update_from_matches default_tie_breakers
          (update_from_matches default_tie_breakers table M₁) M₂ =
        update_from_matches default_tie_breakers table (M₁ ++ M₂)) := by
  set key := default_tie_breakers with hkey
  set f₂ : TeamStanding → TeamStanding :=
    (fun st => st.sum (deltasFor st.team M₂)) with hf₂
  have hE : (update_from_matchesE key table M₁).bind
      (fun t => update_from_matchesE key t M₂) =
      .ok (update_from_matches key (update_from_matches key table M₁) M₂) := by
    rw [update_from_matchesE_eq_ok]
    show update_from_matchesE key (update_from_matches key table M₁) M₂ = _
    rw [update_from_matchesE_eq_ok]
  set P := table.map (fun st => st.sum (deltasFor st.team M₁)) with hP
  set R₂ := (update_from_matches key table M₁).map f₂ with hR₂
  set R₁ := table.map (fun st => st.sum (deltasFor st.team (M₁ ++ M₂))) with hR₁
  have hmid : update_from_matches key table M₁ =
      assignPositions 1 (sortDesc key P) := rfl
  have hA : R₂.map TeamStanding.content =
      ((sortDesc key P).map f₂).map TeamStanding.content := by
    rw [hR₂, hmid]
    exact map_update_assign M₂ 1 (sortDesc key P)
  have hC : P.map f₂ = R₁ := by
    rw [hP, hR₁, List.map_map]
    refine List.map_congr_left ?_
    intro st _
    exact double_update_row M₁ M₂ st
  have hB : (((sortDesc key P).map f₂).map TeamStanding.content).Perm
      (R₁.map TeamStanding.content) := by
    rw [← hC]
    exact (((sortDesc_perm key P).map f₂).map TeamStanding.content)
  have hR : (R₂.map TeamStanding.content).Perm (R₁.map TeamStanding.content) := by
    rw [hA]
    exact hB
  have hfinal₂ : update_from_matches key (update_from_matches key table M₁) M₂ =
      assignPositions 1 (sortDesc key R₂) := rfl
  have hfinal₁ : update_from_matches key table (M₁ ++ M₂) =
      assignPositions 1 (sortDesc key R₁) := rfl
  have hkc : ∀ s : TeamStanding, key s.content = key s := fun _ => rfl
  have hPerm : ((update_from_matches key (update_from_matches key table M₁) M₂).map
      TeamStanding.content).Perm
      ((update_from_matches key table (M₁ ++ M₂)).map TeamStanding.content) := by
    rw [hfinal₂, hfinal₁, assignPositions_map_content, assignPositions_map_content]
    exact (((sortDesc_perm key R₂).map TeamStanding.content).trans hR).trans
      ((sortDesc_perm key R₁).map TeamStanding.content).symm
  refine ⟨hE, hPerm, ?_⟩
  intro hk
  have hkk₁ : (R₁.map key).Nodup := by
    rw [hfinal₁] at hk
    rw [assignPositions_map_key] at hk
    exact ((sortDesc_perm key R₁).map key).nodup_iff.mp hk
  have hmapkey : ∀ l : List TeamStanding,
      (l.map TeamStanding.content).map key = l.map key := by
    intro l
    rw [List.map_map]
    rfl
  have hkB : ((R₁.map TeamStanding.content).map key).Nodup := by
    rw [hmapkey]
    exact hkk₁
  have hkA : ((R₂.map TeamStanding.content).map key).Nodup := by
    exact ((hR.map key).nodup_iff).mpr hkB
  have hsorteq : sortDesc key (R₂.map TeamStanding.content) =
      sortDesc key (R₁.map TeamStanding.content) := by
    refine sortDesc_eq_of_perm key ?_ (sortDesc_pairwise key _) (sortDesc_pairwise key _) ?_
    · exact ((sortDesc_perm key _).trans hR).trans (sortDesc_perm key _).symm
    · exact ((sortDesc_perm key _).map key).nodup_iff.mpr hkA
  rw [hfinal₂, hfinal₁]
  refine assignPositions_congr 1 ?_
  rw [← sortDesc_map_comm key TeamStanding.content hkc R₂,
    ← sortDesc_map_comm key TeamStanding.content hkc R₁, hsorteq]

/-- Witness for C4's amended theorem at a concrete input with pairwise
distinct final keys. -/
theorem update_batches_agree_witness :
    update_from_matches default_tie_breakers
        (update_from_matches default_tie_breakers (standings_from_teams [teamA, teamB])
          [mAB1]) [] =
      update_from_matches default_tie_breakers (standings_from_teams [teamA, teamB])
        ([mAB1] ++ []) :=
  (update_batches_agree (standings_from_teams [teamA, teamB]) [mAB1] []).2.2 (by decide)

/-- C5 counterexample: updating the freshly created two-team table (whose
rows both carry position 2, as `Standings.from_teams` assigns `len(teams)`
to every row) with an empty match collection returns a table with positions
1 and 2, hence not equal to the input. -/
theorem update_empty_changes_positions :
    update_from_matchesE default_tie_breakers (standings_from_teams [teamA, teamB]) [] ≠
      .ok (standings_from_teams [teamA, teamB]) := by
  decide

/-- C5 amended: updating with an empty match collection returns the input
table provided the input is already in ranked form: rows weakly descending
in the tie-break key and positions enumerated from 1 (any table produced by
a previous update has this shape; a fresh `from_teams` table does not). -/
theorem update_empty_matches (table : List TeamStanding)
    (hsorted : table.Pairwise (fun a b => default_tie_breakers b ≤ default_tie_breakers a))
    (hpos : assignPositions 1 table = table) :
    update_from_matchesE default_tie_breakers table [] = .ok table := by
  rw [update_from_matchesE_eq_ok]
  unfold update_from_matches calculate_positions
  have hmap : (table.map fun st => st.sum (deltasFor st.team [])) = table := by
    have h1 : ∀ st : TeamStanding, st.sum (deltasFor st.team []) = st := fun _ => rfl
    simp only [h1, List.map_id']
  rw [hmap, sortDesc_of_pairwise _ hsorted, hpos]

/-- A ranked two-team table: sorted weakly descending (all keys equal) with
positions 1 and 2. -/
def rankedTableAB : List TeamStanding :=
  [{ team := teamA, position := 1 }, { team := teamB, position := 2 }]

/-- Witness for C5's amended theorem at a concrete ranked table. -/
theorem update_empty_matches_witness :
    rankedTableAB.Pairwise
        (fun a b => default_tie_breakers b ≤ default_tie_breakers a) ∧
    assignPositions 1 rankedTableAB = rankedTableAB ∧
    update_from_matchesE default_tie_breakers rankedTableAB [] = .ok rankedTableAB :=
  ⟨by decide, by decide, update_empty_matches rankedTableAB (by decide) (by decide)⟩

/-- C6 counterexample: updating the A/B table with a played match between C
and D (neither present in the table) raises nothing: it returns a table whose
aggregates are untouched — the C and D deltas are silently dropped, exactly
what the claim says must not happen. -/
theorem update_unknown_contestant_no_error :
    update_from_matchesE default_tie_breakers (standings_from_teams [teamA, teamB])
        [mCD] =
      .ok [{ team := teamA, position := 1 }, { team := teamB, position := 2 }] := by
  decide

/-- C6 amended: a match whose contestants have no row in the table
contributes nothing to the update — no assertion fires, no error is raised,
and the result is as if the match were absent from the batch. -/
theorem update_drops_absent_contestants (table : List TeamStanding) (m : Match)
    (ms : List Match)
    (hh : ∀ st ∈ table, st.team ≠ m.home_team)
    (ha : ∀ st ∈ table, st.team ≠ m.away_team) :
    update_from_matchesE default_tie_breakers table (m :: ms) =
      update_from_matchesE default_tie_breakers table ms := by
  rw [update_from_matchesE_eq_ok, update_from_matchesE_eq_ok]
  unfold update_from_matches
  have hrows : (table.map fun st => st.sum (deltasFor st.team (m :: ms))) =
      table.map fun st => st.sum (deltasFor st.team ms) := by
    refine List.map_congr_left ?_
    intro st hst
    have h1 : matchDeltas st.team m = [] := by
      unfold matchDeltas
      rcases hres : m.result with _ | mr
      · rfl
      · dsimp only
        rw [if_neg fun hc => (hh st hst) hc.symm, if_neg fun hc => (ha st hst) hc.symm]
        rfl
    have h2 : deltasFor st.team (m :: ms) =
        matchDeltas st.team m ++ deltasFor st.team ms := by
      unfold deltasFor
      rw [List.flatMap_cons]
    rw [h2, h1, List.nil_append]
  rw [hrows]

/-- Witness for C6's amended theorem at the concrete A/B table and the C-D
match. -/
theorem update_drops_absent_contestants_witness :
    (∀ st ∈ standings_from_teams [teamA, teamB], st.team ≠ mCD.home_team) ∧
    (∀ st ∈ standings_from_teams [teamA, teamB], st.team ≠ mCD.away_team) ∧
    update_from_matchesE default_tie_breakers (standings_from_teams [teamA, teamB])
        [mCD] =
      update_from_matchesE default_tie_breakers (standings_from_teams [teamA, teamB]) [] :=
  ⟨by decide, by decide,
    update_drops_absent_contestants (standings_from_teams [teamA, teamB]) mCD []
      (by decide) (by decide)⟩

/-! ### Scheduler (`models/league.py`)

`League.fixtures` pads the team list to even length with a `None` bye
(identity for an even count of at least two teams), shuffles it, then builds
one fixture per circular shift of the tail, with the head team fixed as the
pivot; `create_fixture` pairs the first half of an arrangement against the
reversed second half and flips home/away on a fair coin per created match.
The `random.shuffle` of the global source is modelled by quantifying the
theorems over the (arbitrary) shuffled list; the coins are an explicit stream
of booleans (`true` means `random.random() < 0.5` fired) threaded through the
successive calls. -/

/-- Dropping the consumed first coin of a stream. -/
def shiftCoins (c : ℕ → Bool) : ℕ → Bool := fun i => c (i + 1)

/-- Loop body of `League.create_fixture`: walk the zipped halves, `continue`
on pairs with a bye side, otherwise build the match, replaced by its away
match when the coin fires; returns the matches and the unconsumed stream. -/
def createFixtureGo (c : ℕ → Bool) :
    List (Option Team × Option Team) → List Match × (ℕ → Bool)
  | [] => ([], c)
  | (o₁, o₂) :: rest =>
    match o₁, o₂ with
    | some t₁, some t₂ =>
      let m₀ : Match := { home_team := t₁, away_team := t₂ }
      let m := if c 0 then m₀.get_away_match else m₀
      let p := createFixtureGo (shiftCoins c) rest
      (m :: p.1, p.2)
    | _, _ => createFixtureGo c rest

/-- Source `League.create_fixture(teams)`: `divide(2, teams)` splits into two
halves, the first longer when the length is odd; the second half is walked
in reverse (`always_reversible`) and zipped against the first. -/
def create_fixture (c : ℕ → Bool) (teams : List (Option Team)) :
    List Match × (ℕ → Bool) :=
  createFixtureGo c
    ((teams.take ((teams.length + 1) / 2)).zip
      ((teams.drop ((teams.length + 1) / 2)).reverse))

/-- The argument lists handed to `create_fixture` by `League.fixtures`:
`[teams[0]] + list(shifts)` for the circular shifts (left rotations by
`0..len-1`) of `teams[1:]`. -/
def arrangements (teams : List (Option Team)) : List (List (Option Team)) :=
  match teams with
  | [] => []
  | t₀ :: q => (List.range q.length).map fun r => t₀ :: q.rotate r

/-- The first-iteration fixture list of `League.fixtures`, threading the
coin stream through the successive `create_fixture` calls. -/
def firstIteration (c : ℕ → Bool) :
    List (List (Option Team)) → List (List Match)
  | [] => []
  | a :: rest =>
    let p := create_fixture c a
    p.1 :: firstIteration p.2 rest

/-- Source `Fixture.get_away_fixture`: swap home and away in every match. -/
def get_away_fixture (ms : List Match) : List Match :=
  ms.map Match.get_away_match

/-- The `for _ in range(iterations - 1)` loop of `League.fixtures`: each
further iteration reverses home/away of the previous one and is appended. -/
def extraIterations (prev : List (List Match)) : ℕ → List (List Match)
  | 0 => []
  | j + 1 => prev.map get_away_fixture ++ extraIterations (prev.map get_away_fixture) j

/-- Source `League.fixtures` on the post-`padded`, post-`shuffle` team list. -/
def league_fixtures (c : ℕ → Bool) (teams : List (Option Team))
    (iterations : ℕ) : List (List Match) :=
  firstIteration c (arrangements teams) ++
    extraIterations (firstIteration c (arrangements teams)) (iterations - 1)

/-- The unordered contestant pair of a match. -/
def matchPair (m : Match) : Sym2 Team := s(m.home_team, m.away_team)

/-- Coin-free unordered pairs of a zipped arrangement (byes skipped). -/
def pairsOf : List (Option Team × Option Team) → List (Sym2 Team)
  | [] => []
  | (some t₁, some t₂) :: rest => s(t₁, t₂) :: pairsOf rest
  | (none, _) :: rest => pairsOf rest
  | (some _, none) :: rest => pairsOf rest

/-- Coin-free flattened contestants of a zipped arrangement (byes skipped). -/
def flatPairs : List (Option Team × Option Team) → List Team
  | [] => []
  | (some t₁, some t₂) :: rest => t₁ :: t₂ :: flatPairs rest
  | (none, _) :: rest => flatPairs rest
  | (some _, none) :: rest => flatPairs rest

/-- Unordered pairs of a bye-free arrangement: first half against reversed
second half. -/
def roundPairs (a : List Team) : List (Sym2 Team) :=
  ((a.take ((a.length + 1) / 2)).zip ((a.drop ((a.length + 1) / 2)).reverse)).map
    fun p => s(p.1, p.2)

/-- Element of the rotated tail at circular index `j` (reduced modulo the
tail length); the default is never reached in the proofs. -/
def qElem (q : List Team) (t₀ : Team) (j : ℕ) : Team :=
  q.getD (j % q.length) t₀

/-- The unordered pair produced by round `r`, match slot `i`, of the polygon
schedule with pivot `t₀` and tail `q` (written with circular indices into
`q`): slot 0 pairs the pivot with tail index `len-1+r`, slot `u+1` pairs tail
indices `u+r` and `len-2-u+r`. -/
def pairAt (q : List Team) (t₀ : Team) (r i : ℕ) : Sym2 Team :=
  if i = 0 then s(t₀, qElem q t₀ (q.length - 1 + r))
  else s(qElem q t₀ (i - 1 + r), qElem q t₀ (q.length - 2 - (i - 1) + r))

theorem createFixtureGo_pairs (c : ℕ → Bool) (l : List (Option Team × Option Team)) :
    ((createFixtureGo c l).1).map matchPair = pairsOf l := by
  induction l generalizing c with
  | nil => rfl
  | cons p rest ih =>
    obtain ⟨o₁, o₂⟩ := p
    cases o₁ with
    | none => exact ih c
    | some t₁ =>
      cases o₂ with
      | none => exact ih c
      | some t₂ =>
        show matchPair
            (if c 0 then Match.get_away_match { home_team := t₁, away_team := t₂ }
             else { home_team := t₁, away_team := t₂ }) :: _ = _
        rw [ih (shiftCoins c)]
        by_cases hc : c 0
        · rw [if_pos hc]
          show s(t₂, t₁) :: _ = s(t₁, t₂) :: _
          rw [Sym2.eq_swap]
        · rw [if_neg hc]
          rfl

theorem create_fixture_pairsOf (c : ℕ → Bool) (a : List (Option Team)) :
    ((create_fixture c a).1).map matchPair =
      pairsOf ((a.take ((a.length + 1) / 2)).zip
        ((a.drop ((a.length + 1) / 2)).reverse)) :=
  createFixtureGo_pairs c _

theorem createFixtureGo_teams (c : ℕ → Bool) (l : List (Option Team × Option Team)) :
    ((createFixtureGo c l).1.flatMap fun mm => [mm.home_team, mm.away_team]).Perm
      (flatPairs l) := by
  induction l generalizing c with
  | nil => exact List.Perm.refl _
  | cons p rest ih =>
    obtain ⟨o₁, o₂⟩ := p
    cases o₁ with
    | none => exact ih c
    | some t₁ =>
      cases o₂ with
      | none => exact ih c
      | some t₂ =>
        show ((if c 0 then Match.get_away_match { home_team := t₁, away_team := t₂ }
             else { home_team := t₁, away_team := t₂ }) ::
            (createFixtureGo (shiftCoins c) rest).1).flatMap
            (fun mm => [mm.home_team, mm.away_team]) |>.Perm (t₁ :: t₂ :: flatPairs rest)
        rw [List.flatMap_cons]
        by_cases hc : c 0
        · rw [if_pos hc]
          show (t₂ :: t₁ :: _).Perm _
          exact (((ih (shiftCoins c)).cons t₁).cons t₂).trans (List.Perm.swap t₁ t₂ _)
        · rw [if_neg hc]
          exact ((ih (shiftCoins c)).cons t₂).cons t₁

theorem mem_createFixtureGo {c : ℕ → Bool} {l : List (Option Team × Option Team)}
    {mm : Match} (h : mm ∈ (createFixtureGo c l).1) :
    ∃ t₁ t₂, (some t₁, some t₂) ∈ l ∧
      (mm = { home_team := t₁, away_team := t₂ } ∨
       mm = { home_team := t₂, away_team := t₁ }) := by
  induction l generalizing c with
  | nil => exact absurd h (List.not_mem_nil mm)
  | cons p rest ih =>
    obtain ⟨o₁, o₂⟩ := p
    cases o₁ with
    | none =>
      obtain ⟨t₁, t₂, hmem, hm⟩ := ih (c := c) h
      exact ⟨t₁, t₂, List.mem_cons_of_mem _ hmem, hm⟩
    | some t₁ =>
      cases o₂ with
      | none =>
        obtain ⟨u₁, u₂, hmem, hm⟩ := ih (c := c) h
        exact ⟨u₁, u₂, List.mem_cons_of_mem _ hmem, hm⟩
      | some t₂ =>
        rcases List.mem_cons.mp h with h | h
        · refine ⟨t₁, t₂, List.mem_cons_self _ _, ?_⟩
          by_cases hc : c 0
          · rw [if_pos hc] at h
            exact Or.inr h
          · rw [if_neg hc] at h
            exact Or.inl h
        · obtain ⟨u₁, u₂, hmem, hm⟩ := ih (c := shiftCoins c) h
          exact ⟨u₁, u₂, List.mem_cons_of_mem _ hmem, hm⟩

theorem firstIteration_length (c : ℕ → Bool) (as : List (List (Option Team))) :
    (firstIteration c as).length = as.length := by
  induction as generalizing c with
  | nil => rfl
  | cons a rest ih =>
    show (firstIteration (create_fixture c a).2 rest).length + 1 = _
    rw [ih]
    rfl

theorem mem_firstIteration {c : ℕ → Bool} {as : List (List (Option Team))}
    {round : List Match} (h : round ∈ firstIteration c as) :
    ∃ c' a, a ∈ as ∧ round = (create_fixture c' a).1 := by
  induction as generalizing c with
  | nil => exact absurd h (List.not_mem_nil round)
  | cons a rest ih =>
    rcases List.mem_cons.mp h with h | h
    · exact ⟨c, a, List.mem_cons_self _ _, h⟩
    · obtain ⟨c', a', hmem, hr⟩ := ih h
      exact ⟨c', a', List.mem_cons_of_mem _ hmem, hr⟩

theorem firstIteration_pairs (c : ℕ → Bool) (as : List (List (Option Team))) :
    (firstIteration c as).map (fun round => round.map matchPair) =
      as.map fun a =>
        pairsOf ((a.take ((a.length + 1) / 2)).zip
          ((a.drop ((a.length + 1) / 2)).reverse)) := by
  induction as generalizing c with
  | nil => rfl
  | cons a rest ih =>
    show ((create_fixture c a).1).map matchPair :: _ = _
    rw [ih, create_fixture_pairsOf]
    rfl

theorem pairsOf_map_some (l : List (Team × Team)) :
    pairsOf (l.map (Prod.map some some)) = l.map fun p => s(p.1, p.2) := by
  induction l with
  | nil => rfl
  | cons p rest ih =>
    obtain ⟨t₁, t₂⟩ := p
    show s(t₁, t₂) :: pairsOf (rest.map (Prod.map some some)) = _
    rw [ih]
    rfl

theorem flatPairs_map_some (l : List (Team × Team)) :
    flatPairs (l.map (Prod.map some some)) = l.flatMap fun p => [p.1, p.2] := by
  induction l with
  | nil => rfl
  | cons p rest ih =>
    obtain ⟨t₁, t₂⟩ := p
    show t₁ :: t₂ :: flatPairs (rest.map (Prod.map some some)) = _
    rw [ih]
    rfl

theorem zipHalves_map_some (a : List Team) :
    (((a.map some).take (((a.map some).length + 1) / 2)).zip
        (((a.map some).drop (((a.map some).length + 1) / 2)).reverse)) =
      ((a.take ((a.length + 1) / 2)).zip
        ((a.drop ((a.length + 1) / 2)).reverse)).map (Prod.map some some) := by
  rw [List.length_map, ← List.map_take, ← List.map_drop, (List.map_reverse _ _).symm,
    List.zip_map]

theorem create_fixture_pairs (c : ℕ → Bool) (a : List Team) :
    ((create_fixture c (a.map some)).1).map matchPair = roundPairs a := by
  unfold create_fixture roundPairs
  rw [createFixtureGo_pairs, zipHalves_map_some, pairsOf_map_some]

theorem zip_flat_perm (u v : List Team) (h : u.length = v.length) :
    ((u.zip v).flatMap fun p => [p.1, p.2]).Perm (u ++ v) := by
  induction u generalizing v with
  | nil =>
    cases v with
    | nil => exact List.Perm.refl _
    | cons y ys => simp at h
  | cons x xs ih =>
    cases v with
    | nil => simp at h
    | cons y ys =>
      simp only [List.length_cons, Nat.add_right_cancel_iff] at h
      show (x :: y :: (xs.zip ys).flatMap fun p => [p.1, p.2]).Perm
        (x :: (xs ++ y :: ys))
      refine List.Perm.cons x ?_
      exact ((ih ys h).cons y).trans List.perm_middle.symm

theorem create_fixture_teams_perm (c : ℕ → Bool) (a : List Team)
    (heven : a.length % 2 = 0) :
    ((create_fixture c (a.map some)).1.flatMap
        fun mm => [mm.home_team, mm.away_team]).Perm a := by
  unfold create_fixture
  refine (createFixtureGo_teams c _).trans ?_
  rw [zipHalves_map_some, flatPairs_map_some]
  have hlen : (a.take ((a.length + 1) / 2)).length =
      ((a.drop ((a.length + 1) / 2)).reverse).length := by
    rw [List.length_reverse, List.length_take, List.length_drop]
    omega
  refine (zip_flat_perm _ _ hlen).trans ?_
  refine ((List.reverse_perm _).append_left _).trans ?_
  rw [List.take_append_drop]

theorem arrangements_cons (t₀ : Team) (q : List Team) :
    arrangements ((t₀ :: q).map some) =
      (List.range q.length).map fun r => (t₀ :: q.rotate r).map some := by
  show (List.range (q.map some).length).map (fun r => some t₀ :: (q.map some).rotate r) = _
  rw [List.length_map]
  refine List.map_congr_left ?_
  intro r _
  rw [(List.map_rotate some q r).symm]
  rfl

theorem getElem_idx_congr (l : List Team) {i j : ℕ} (h : i < l.length)
    (hj : j < l.length) (hij : i = j) : l[i] = l[j] := by
  subst hij
  rfl

theorem qElem_getElem (q : List Team) (t₀ : Team) (j : ℕ) (hq : 0 < q.length) :
    qElem q t₀ j = q.get ⟨j % q.length, Nat.mod_lt j hq⟩ :=
  List.getD_eq_getElem q t₀ _

theorem getElem_cons_rotate (t₀ : Team) (q : List Team) (r idx : ℕ)
    (h : idx < (t₀ :: q.rotate r).length) (hpos : 0 < idx) (hq : 0 < q.length) :
    (t₀ :: q.rotate r)[idx] = qElem q t₀ (idx - 1 + r) := by
  obtain ⟨j, rfl⟩ : ∃ j, idx = j + 1 := ⟨idx - 1, by omega⟩
  have hj : j < (q.rotate r).length := by
    rw [List.length_cons] at h
    omega
  rw [List.getElem_cons_succ, qElem_getElem q t₀ _ hq]
  show (q.rotate r).get ⟨j, hj⟩ = _
  rw [List.get_rotate]
  simp [Nat.succ_sub_one]

theorem roundPairs_length (a : List Team) (k : ℕ) (ha : a.length = 2 * k) :
    (roundPairs a).length = k := by
  unfold roundPairs
  rw [List.length_map, List.length_zip, List.length_take, List.length_reverse,
    List.length_drop, ha]
  omega

theorem roundPairs_rotate (q : List Team) (t₀ : Team) (r k : ℕ) (hk : 1 ≤ k)
    (hq : q.length = 2 * k - 1) :
    roundPairs (t₀ :: q.rotate r) = (List.range k).map (pairAt q t₀ r) := by
  have hm : 0 < q.length := by omega
  have halen : (t₀ :: q.rotate r).length = 2 * k := by
    rw [List.length_cons, List.length_rotate]
    omega
  have hk' : ((t₀ :: q.rotate r).length + 1) / 2 = k := by rw [halen]; omega
  unfold roundPairs
  rw [hk']
  refine List.ext_getElem ?_ ?_
  · simp only [List.length_map, List.length_range, List.length_zip,
      List.length_take, List.length_reverse, List.length_drop, halen]
    omega
  · intro i h₁ h₂
    have hik : i < k := by rwa [List.length_map, List.length_range] at h₂
    simp only [List.getElem_map, List.getElem_zip, List.getElem_range]
    rw [List.getElem_take, List.getElem_reverse _, List.getElem_drop]
    cases i with
    | zero =>
      unfold pairAt
      rw [if_pos rfl]
      rw [List.getElem_cons_zero]
      rw [getElem_idx_congr _ _
        (by rw [List.length_cons, List.length_rotate]; omega : 2 * k - 1 <
          (t₀ :: q.rotate r).length)
        (by rw [List.length_drop, halen] at *; omega :
          k + (((t₀ :: q.rotate r).drop k).length - 1 - 0) = 2 * k - 1)]
      rw [getElem_cons_rotate t₀ q r _ _ (by omega) hm]
      have : 2 * k - 1 - 1 + r = q.length - 1 + r := by omega
      rw [this]
    | succ j =>
      unfold pairAt
      rw [if_neg (Nat.succ_ne_zero j)]
      rw [getElem_cons_rotate t₀ q r (j + 1) _ (by omega) hm]
      rw [getElem_idx_congr _ _
        (by rw [List.length_cons, List.length_rotate]; omega : 2 * k - 2 - j <
          (t₀ :: q.rotate r).length)
        (by rw [List.length_drop, halen] at *; omega :
          k + (((t₀ :: q.rotate r).drop k).length - 1 - (j + 1)) = 2 * k - 2 - j)]
      rw [getElem_cons_rotate t₀ q r _ _ (by omega) hm]
      have h2 : 2 * k - 2 - j - 1 + r = q.length - 2 - (j + 1 - 1) + r := by omega
      rw [h2]

theorem qElem_congr (q : List Team) (t₀ : Team) {j₁ j₂ : ℕ}
    (h : j₁ % q.length = j₂ % q.length) : qElem q t₀ j₁ = qElem q t₀ j₂ := by
  unfold qElem
  rw [h]

theorem qElem_mem (q : List Team) (t₀ : Team) (j : ℕ) (hq : 0 < q.length) :
    qElem q t₀ j ∈ q := by
  rw [qElem_getElem q t₀ j hq]
  exact List.getElem_mem _

theorem qElem_ne_pivot {q : List Team} {t₀ : Team} (hpiv : t₀ ∉ q) (j : ℕ)
    (hq : 0 < q.length) : t₀ ≠ qElem q t₀ j :=
  fun he => hpiv (he ▸ qElem_mem q t₀ j hq)

theorem qElem_inj {q : List Team} {t₀ : Team} (hnd : q.Nodup) (hq : 0 < q.length)
    {j₁ j₂ : ℕ} (h : qElem q t₀ j₁ = qElem q t₀ j₂) :
    j₁ % q.length = j₂ % q.length := by
  rw [qElem_getElem q t₀ j₁ hq, qElem_getElem q t₀ j₂ hq] at h
  exact (List.Nodup.getElem_inj_iff hnd).mp h

theorem qElem_of_lt {q : List Team} (t₀ : Team) {z : ℕ} (hz : z < q.length) :
    qElem q t₀ z = q[z] := by
  rw [qElem_getElem q t₀ z (by omega), List.get_eq_getElem]
  exact getElem_idx_congr q (Nat.mod_lt z (by omega)) hz (Nat.mod_eq_of_lt hz)

theorem pairAt_inj (q : List Team) (t₀ : Team) (k : ℕ) (hk : 1 ≤ k)
    (hq : q.length = 2 * k - 1) (hnd : q.Nodup) (hpiv : t₀ ∉ q)
    {r₁ i₁ r₂ i₂ : ℕ} (hr₁ : r₁ < q.length) (hi₁ : i₁ < k)
    (hr₂ : r₂ < q.length) (hi₂ : i₂ < k)
    (heq : pairAt q t₀ r₁ i₁ = pairAt q t₀ r₂ i₂) : r₁ = r₂ ∧ i₁ = i₂ := by
  have hm : 0 < q.length := by omega
  have hmodd : q.length % 2 = 1 := by omega
  have hcancel2 : ∀ a b : ℕ, (2 * a) % q.length = (2 * b) % q.length →
      a % q.length = b % q.length := by
    intro a b hab
    have hco : Nat.Coprime q.length 2 := Nat.coprime_two_right.mpr (Nat.odd_iff.mpr hmodd)
    exact Nat.ModEq.cancel_left_of_coprime hco hab
  unfold pairAt at heq
  by_cases h₁ : i₁ = 0 <;> by_cases h₂ : i₂ = 0
  · rw [if_pos h₁, if_pos h₂, Sym2.eq_iff] at heq
    rcases heq with ⟨-, he⟩ | ⟨he, -⟩
    · have hc := qElem_inj hnd hm he
      have hr : r₁ % q.length = r₂ % q.length :=
        Nat.ModEq.add_left_cancel' (q.length - 1) hc
      rw [Nat.mod_eq_of_lt hr₁, Nat.mod_eq_of_lt hr₂] at hr
      exact ⟨hr, h₁.trans h₂.symm⟩
    · exact absurd he (qElem_ne_pivot hpiv _ hm)
  · rw [if_pos h₁, if_neg h₂, Sym2.eq_iff] at heq
    rcases heq with ⟨he, -⟩ | ⟨he, -⟩ <;> exact absurd he (qElem_ne_pivot hpiv _ hm)
  · rw [if_neg h₁, if_pos h₂, Sym2.eq_iff] at heq
    rcases heq with ⟨he, -⟩ | ⟨-, he⟩ <;> exact absurd he.symm (qElem_ne_pivot hpiv _ hm)
  · rw [if_neg h₁, if_neg h₂, Sym2.eq_iff] at heq
    obtain ⟨u₁, rfl⟩ : ∃ u, i₁ = u + 1 := ⟨i₁ - 1, by omega⟩
    obtain ⟨u₂, rfl⟩ : ∃ u, i₂ = u + 1 := ⟨i₂ - 1, by omega⟩
    simp only [Nat.succ_sub_one] at heq
    have hu₁ : u₁ ≤ k - 2 := by omega
    have hu₂ : u₂ ≤ k - 2 := by omega
    have hk2 : 2 ≤ k := by omega
    rcases heq with ⟨he₁, he₂⟩ | ⟨he₁, he₂⟩
    · have e₁ := qElem_inj hnd hm he₁
      have e₂ := qElem_inj hnd hm he₂
      have hsum : (q.length - 2 + 2 * r₁) % q.length =
          (q.length - 2 + 2 * r₂) % q.length := by
        have hadd := Nat.ModEq.add e₁ e₂
        have hl : u₁ + r₁ + (q.length - 2 - u₁ + r₁) = q.length - 2 + 2 * r₁ := by omega
        have hr : u₂ + r₂ + (q.length - 2 - u₂ + r₂) = q.length - 2 + 2 * r₂ := by omega
        rwa [hl, hr] at hadd
      have hrr : r₁ = r₂ := by
        have h2r := Nat.ModEq.add_left_cancel' (q.length - 2) hsum
        have hcc := hcancel2 r₁ r₂ h2r
        rwa [Nat.mod_eq_of_lt hr₁, Nat.mod_eq_of_lt hr₂] at hcc
      subst hrr
      have huu : u₁ % q.length = u₂ % q.length := Nat.ModEq.add_right_cancel' r₁ e₁
      rw [Nat.mod_eq_of_lt (by omega : u₁ < q.length),
        Nat.mod_eq_of_lt (by omega : u₂ < q.length)] at huu
      exact ⟨rfl, by omega⟩
    · have e₁ := qElem_inj hnd hm he₁
      have e₂ := qElem_inj hnd hm he₂
      have hsum : (q.length - 2 + 2 * r₁) % q.length =
          (q.length - 2 + 2 * r₂) % q.length := by
        have hadd := Nat.ModEq.add e₁ e₂
        have hl : u₁ + r₁ + (q.length - 2 - u₁ + r₁) = q.length - 2 + 2 * r₁ := by omega
        have hr : q.length - 2 - u₂ + r₂ + (u₂ + r₂) = q.length - 2 + 2 * r₂ := by omega
        rwa [hl, hr] at hadd
      have hrr : r₁ = r₂ := by
        have h2r := Nat.ModEq.add_left_cancel' (q.length - 2) hsum
        have hcc := hcancel2 r₁ r₂ h2r
        rwa [Nat.mod_eq_of_lt hr₁, Nat.mod_eq_of_lt hr₂] at hcc
      subst hrr
      have huu : u₁ % q.length = (q.length - 2 - u₂) % q.length :=
        Nat.ModEq.add_right_cancel' r₁ e₁
      rw [Nat.mod_eq_of_lt (by omega : u₁ < q.length),
        Nat.mod_eq_of_lt (by omega : q.length - 2 - u₂ < q.length)] at huu
      omega

theorem polygon_pairs_count (q : List Team) (t₀ : Team) (k : ℕ) (hk : 1 ≤ k)
    (hq : q.length = 2 * k - 1) (hnd : q.Nodup) (hpiv : t₀ ∉ q)
    {x y : Team} (hx : x ∈ t₀ :: q) (hy : y ∈ t₀ :: q) (hxy : x ≠ y) :
    ((List.range q.length).flatMap fun r =>
      (List.range k).map (pairAt q t₀ r)).count s(x, y) = 1 := by
  have hm : 0 < q.length := by omega
  have hmodd : q.length % 2 = 1 := by omega
  have hnodup : ((List.range q.length).flatMap fun r =>
      (List.range k).map (pairAt q t₀ r)).Nodup := by
    rw [List.nodup_flatMap]
    constructor
    · intro r hr
      rw [List.mem_range] at hr
      refine List.Nodup.map_on ?_ (List.nodup_range k)
      intro i₁ hi₁ i₂ hi₂ hpe
      rw [List.mem_range] at hi₁ hi₂
      exact (pairAt_inj q t₀ k hk hq hnd hpiv hr hi₁ hr hi₂ hpe).2
    · refine (List.nodup_range q.length).imp_of_mem ?_
      intro r₁ r₂ hmem₁ hmem₂ hne
      rw [List.mem_range] at hmem₁ hmem₂
      intro p hp₁ hp₂
      rw [List.mem_map] at hp₁ hp₂
      obtain ⟨i₁, hi₁, hfe₁⟩ := hp₁
      obtain ⟨i₂, hi₂, hfe₂⟩ := hp₂
      rw [List.mem_range] at hi₁ hi₂
      exact hne (pairAt_inj q t₀ k hk hq hnd hpiv hmem₁ hi₁ hmem₂ hi₂
        (hfe₁.trans hfe₂.symm)).1
  have hmem : s(x, y) ∈ (List.range q.length).flatMap fun r =>
      (List.range k).map (pairAt q t₀ r) := by
    have hpividx : ∀ z : ℕ,
        (q.length - 1 + (z + 1) % q.length) % q.length = z % q.length := by
      intro z
      have e1 : Nat.ModEq q.length (q.length - 1 + (z + 1) % q.length)
          (q.length - 1 + (z + 1)) := Nat.ModEq.add_left _ (Nat.mod_modEq _ _)
      have e2 : q.length - 1 + (z + 1) = q.length + z := by omega
      rw [e2] at e1
      exact e1.trans (Nat.add_mod_left _ _)
    rcases List.mem_cons.mp hx with hxt | hxq
    · rcases List.mem_cons.mp hy with hyt | hyq
      · exact absurd (hxt.trans hyt.symm) hxy
      · obtain ⟨⟨z, hz⟩, hzy⟩ := List.mem_iff_get.mp hyq
        rw [hxt]
        refine List.mem_flatMap.mpr
          ⟨(z + 1) % q.length, List.mem_range.mpr (Nat.mod_lt _ hm), ?_⟩
        refine List.mem_map.mpr ⟨0, List.mem_range.mpr (by omega), ?_⟩
        unfold pairAt
        rw [if_pos rfl]
        rw [qElem_congr q t₀ (hpividx z), qElem_of_lt t₀ hz, show q[z] = y from hzy]
    · rcases List.mem_cons.mp hy with hyt | hyq
      · obtain ⟨⟨z, hz⟩, hzx⟩ := List.mem_iff_get.mp hxq
        rw [hyt]
        refine List.mem_flatMap.mpr
          ⟨(z + 1) % q.length, List.mem_range.mpr (Nat.mod_lt _ hm), ?_⟩
        refine List.mem_map.mpr ⟨0, List.mem_range.mpr (by omega), ?_⟩
        unfold pairAt
        rw [if_pos rfl]
        rw [qElem_congr q t₀ (hpividx z), qElem_of_lt t₀ hz, show q[z] = x from hzx]
        exact Sym2.eq_swap
      · obtain ⟨⟨zx, hzx⟩, hx'⟩ := List.mem_iff_get.mp hxq
        obtain ⟨⟨zy, hzy⟩, hy'⟩ := List.mem_iff_get.mp hyq
        have hzne : zx ≠ zy := by
          intro h
          have hgg : q.get ⟨zx, hzx⟩ = q.get ⟨zy, hzy⟩ := by
            subst h
            rfl
          exact hxy ((hx'.symm.trans hgg).trans hy')
        have hk2 : 2 ≤ k := by omega
        set r := ((zx + zy + 2) * ((q.length + 1) / 2)) % q.length with hrdef
        have hrm : r < q.length := Nat.mod_lt _ hm
        have h2r : (2 * r) % q.length = (zx + zy + 2) % q.length := by
          have e1 : Nat.ModEq q.length (2 * r)
              (2 * ((zx + zy + 2) * ((q.length + 1) / 2))) :=
            Nat.ModEq.mul_left 2 (Nat.mod_modEq _ _)
          have e2 : 2 * ((zx + zy + 2) * ((q.length + 1) / 2)) =
              (zx + zy + 2) * (q.length + 1) := by
            have hhalf : 2 * ((q.length + 1) / 2) = q.length + 1 := by omega
            calc 2 * ((zx + zy + 2) * ((q.length + 1) / 2))
                = (zx + zy + 2) * (2 * ((q.length + 1) / 2)) := by ring
              _ = (zx + zy + 2) * (q.length + 1) := by rw [hhalf]
          rw [e2] at e1
          have e3 : Nat.ModEq q.length ((zx + zy + 2) * (q.length + 1))
              ((zx + zy + 2) * 1) :=
            Nat.ModEq.mul_left _ (Nat.add_mod_left _ _)
          have e4 := e1.trans e3
          rwa [Nat.mul_one] at e4
        set u₀ := (zx + q.length - r) % q.length with hu₀def
        set v₀ := (zy + q.length - r) % q.length with hv₀def
        have hu₀m : u₀ < q.length := Nat.mod_lt _ hm
        have hv₀m : v₀ < q.length := Nat.mod_lt _ hm
        have hu : (u₀ + r) % q.length = zx % q.length := by
          have e1 : Nat.ModEq q.length (u₀ + r) (zx + q.length - r + r) :=
            Nat.ModEq.add_right r (Nat.mod_modEq _ _)
          have e2 : zx + q.length - r + r = zx + q.length := by omega
          rw [e2] at e1
          exact e1.trans (Nat.add_mod_right _ _)
        have hv : (v₀ + r) % q.length = zy % q.length := by
          have e1 : Nat.ModEq q.length (v₀ + r) (zy + q.length - r + r) :=
            Nat.ModEq.add_right r (Nat.mod_modEq _ _)
          have e2 : zy + q.length - r + r = zy + q.length := by omega
          rw [e2] at e1
          exact e1.trans (Nat.add_mod_right _ _)
        have huv_ne : u₀ ≠ v₀ := by
          intro h
          apply hzne
          have hz2 : zx % q.length = zy % q.length := by rw [← hu, ← hv, h]
          rwa [Nat.mod_eq_of_lt hzx, Nat.mod_eq_of_lt hzy] at hz2
        have hdvd : q.length ∣ (u₀ + v₀ + 2) := by
          have e1 : Nat.ModEq q.length (u₀ + v₀ + 2 * r) (zx + zy) := by
            have := Nat.ModEq.add hu hv
            have hl : u₀ + r + (v₀ + r) = u₀ + v₀ + 2 * r := by omega
            rwa [hl] at this
          have e2 : Nat.ModEq q.length (u₀ + v₀ + (zx + zy + 2)) (zx + zy) := by
            have := Nat.ModEq.add_left (u₀ + v₀) h2r
            have hl : u₀ + v₀ + 2 * r = u₀ + v₀ + 2 * r := rfl
            exact (this.symm.trans e1)
          have e3 : Nat.ModEq q.length (u₀ + v₀ + 2 + (zx + zy)) (0 + (zx + zy)) := by
            have hl : u₀ + v₀ + (zx + zy + 2) = u₀ + v₀ + 2 + (zx + zy) := by omega
            rw [hl] at e2
            have hr0 : zx + zy = 0 + (zx + zy) := by omega
            rw [← hr0]
            exact e2
          have e4 := Nat.ModEq.add_right_cancel' (zx + zy) e3
          exact (Nat.modEq_zero_iff_dvd).mp e4
        have hsum : u₀ + v₀ = q.length - 2 := by
          obtain ⟨d, hd⟩ := hdvd
          have hd1 : 1 ≤ d := by
            rcases Nat.eq_zero_or_pos d with h0 | h0
            · rw [h0, Nat.mul_zero] at hd
              omega
            · exact h0
          have hd2 : d ≤ 2 := by
            by_contra hgt
            push_neg at hgt
            have h3 : 3 * q.length ≤ q.length * d := by
              calc 3 * q.length = q.length * 3 := by ring
                _ ≤ q.length * d := Nat.mul_le_mul_left _ (by omega)
            omega
          rcases (by omega : d = 1 ∨ d = 2) with rfl | rfl
          · rw [Nat.mul_one] at hd
            omega
          · exfalso
            have h2d : u₀ + v₀ + 2 = 2 * q.length := by
              rw [hd]
              ring
            have hboth : u₀ = q.length - 1 ∧ v₀ = q.length - 1 := by omega
            exact huv_ne (hboth.1.trans hboth.2.symm)
        rcases Nat.lt_or_ge u₀ v₀ with hlt | hge
        · have hu₀k : u₀ + 1 < k := by omega
          refine List.mem_flatMap.mpr ⟨r, List.mem_range.mpr hrm, ?_⟩
          refine List.mem_map.mpr ⟨u₀ + 1, List.mem_range.mpr hu₀k, ?_⟩
          unfold pairAt
          rw [if_neg (Nat.succ_ne_zero u₀)]
          simp only [Nat.succ_sub_one]
          have hqx : qElem q t₀ (u₀ + r) = x := by
            rw [qElem_congr q t₀ hu, qElem_of_lt t₀ hzx, show q[zx] = x from hx']
          have hqy : qElem q t₀ (q.length - 2 - u₀ + r) = y := by
            have hvv : q.length - 2 - u₀ = v₀ := by omega
            rw [hvv, qElem_congr q t₀ hv, qElem_of_lt t₀ hzy, show q[zy] = y from hy']
          rw [hqx, hqy]
        · have hlt' : v₀ < u₀ := by omega
          have hv₀k : v₀ + 1 < k := by omega
          refine List.mem_flatMap.mpr ⟨r, List.mem_range.mpr hrm, ?_⟩
          refine List.mem_map.mpr ⟨v₀ + 1, List.mem_range.mpr hv₀k, ?_⟩
          unfold pairAt
          rw [if_neg (Nat.succ_ne_zero v₀)]
          simp only [Nat.succ_sub_one]
          have hqy : qElem q t₀ (v₀ + r) = y := by
            rw [qElem_congr q t₀ hv, qElem_of_lt t₀ hzy, show q[zy] = y from hy']
          have hqx : qElem q t₀ (q.length - 2 - v₀ + r) = x := by
            have huu : q.length - 2 - v₀ = u₀ := by omega
            rw [huu, qElem_congr q t₀ hu, qElem_of_lt t₀ hzx, show q[zx] = x from hx']
          rw [hqx, hqy]
          exact Sym2.eq_swap
  exact List.count_eq_one_of_mem hnodup hmem

theorem league_fixtures_one (c : ℕ → Bool) (teams : List (Option Team)) :
    league_fixtures c teams 1 = firstIteration c (arrangements teams) := by
  unfold league_fixtures
  exact List.append_nil _

/-! ### Claim C3: the round-robin schedule for an even number of contestants -/

/-- C3: for an even number `n ≥ 2` of pairwise-distinct contestants scheduled
for one iteration (any shuffle outcome `ts`, any coin stream `c`): there are
exactly `n - 1` rounds; every round has `n / 2` matches; every contestant
appears in every round exactly once; and across the whole iteration every
unordered pair of distinct contestants is played exactly once. -/
theorem round_robin_schedule (ts : List Team) (c : ℕ → Bool)
    (hnd : ts.Nodup) (h2 : 2 ≤ ts.length) (heven : ts.length % 2 = 0) :
    (league_fixtures c (ts.map some) 1).length = ts.length - 1 ∧
    (∀ round ∈ league_fixtures c (ts.map some) 1, round.length = ts.length / 2) ∧
    (∀ round ∈ league_fixtures c (ts.map some) 1, ∀ t ∈ ts,
      (round.flatMap fun mm => [mm.home_team, mm.away_team]).count t = 1) ∧
    (∀ x ∈ ts, ∀ y ∈ ts, x ≠ y →
      ((league_fixtures c (ts.map some) 1).flatMap fun round =>
        round.map matchPair).count s(x, y) = 1) := by
  obtain ⟨t₀, q, rfl⟩ : ∃ t₀ q, ts = t₀ :: q := by
    cases ts with
    | nil => simp at h2
    | cons a l => exact ⟨a, l, rfl⟩
  have hlen : (t₀ :: q).length = q.length + 1 := rfl
  set k := (t₀ :: q).length / 2 with hkdef
  have hk : 1 ≤ k := by omega
  have hq : q.length = 2 * k - 1 := by omega
  have hndq : q.Nodup := (List.nodup_cons.mp hnd).2
  have hpiv : t₀ ∉ q := (List.nodup_cons.mp hnd).1
  rw [league_fixtures_one, arrangements_cons]
  refine ⟨?_, ?_, ?_, ?_⟩
  · rw [firstIteration_length, List.length_map, List.length_range]
    omega
  · intro round hr
    obtain ⟨c', a, ha, rfl⟩ := mem_firstIteration hr
    rw [List.mem_map] at ha
    obtain ⟨r, hrr, rfl⟩ := ha
    have hlen2 : (t₀ :: q.rotate r).length = 2 * k := by
      rw [List.length_cons, List.length_rotate]
      omega
    have hrp := create_fixture_pairs c' (t₀ :: q.rotate r)
    have hl : (create_fixture c' ((t₀ :: q.rotate r).map some)).1.length = k := by
      have hml := congrArg List.length hrp
      rw [List.length_map, roundPairs_length _ k hlen2] at hml
      exact hml
    rw [hl]
  · intro round hr t ht
    obtain ⟨c', a, ha, rfl⟩ := mem_firstIteration hr
    rw [List.mem_map] at ha
    obtain ⟨r, hrr, rfl⟩ := ha
    have hevenlen : (t₀ :: q.rotate r).length % 2 = 0 := by
      rw [List.length_cons, List.length_rotate]
      omega
    have hperm := create_fixture_teams_perm c' (t₀ :: q.rotate r) hevenlen
    rw [hperm.count_eq]
    have hpermts : (t₀ :: q.rotate r).Perm (t₀ :: q) := (List.rotate_perm q r).cons t₀
    rw [hpermts.count_eq]
    exact List.count_eq_one_of_mem hnd ht
  · intro x hx y hy hxy
    have hflat : ((firstIteration c ((List.range q.length).map fun r =>
          (t₀ :: q.rotate r).map some)).flatMap fun round => round.map matchPair) =
        (List.range q.length).flatMap fun r =>
          (List.range k).map (pairAt q t₀ r) := by
      rw [List.flatMap_def, firstIteration_pairs, List.map_map, List.flatMap_def]
      refine congrArg List.flatten ?_
      refine List.map_congr_left ?_
      intro r hrmem
      show pairsOf _ = _
      rw [zipHalves_map_some, pairsOf_map_some]
      show roundPairs (t₀ :: q.rotate r) = _
      exact roundPairs_rotate q t₀ r k hk hq
    rw [hflat]
    exact polygon_pairs_count q t₀ k hk hq hndq hpiv hx hy hxy

/-- Witness for C3 at four concrete teams and a constant coin stream. -/
theorem round_robin_schedule_witness :
    ([teamA, teamB, teamC, teamD] : List Team).Nodup ∧
    (league_fixtures (fun _ => false) ([teamA, teamB, teamC, teamD].map some) 1).length =
      ([teamA, teamB, teamC, teamD] : List Team).length - 1 :=
  ⟨by decide,
    (round_robin_schedule [teamA, teamB, teamC, teamD] (fun _ => false)
      (by decide) (by decide) (by decide)).1⟩

/-! ### Claim C9: the `home ≠ away` invariant -/

/-- C9 counterexample: nothing in the `Match` model validates the two sides,
so a match whose home and away contestants are the same team value is
representable. -/
theorem match_same_sides_representable :
    ({ home_team := teamA, away_team := teamA } : Match).home_team =
      ({ home_team := teamA, away_team := teamA } : Match).away_team := rfl

theorem extraIterations_preserve (P : Match → Prop)
    (hP : ∀ mm, P mm → P mm.get_away_match) :
    ∀ (j : ℕ) (prev : List (List Match)),
      (∀ round ∈ prev, ∀ mm ∈ round, P mm) →
      ∀ round ∈ extraIterations prev j, ∀ mm ∈ round, P mm := by
  intro j
  induction j with
  | zero =>
    intro prev _ round hr
    exact absurd hr (List.not_mem_nil round)
  | succ j ih =>
    intro prev hprev round hr
    have hnext : ∀ round ∈ prev.map get_away_fixture, ∀ mm ∈ round, P mm := by
      intro round' hr' mm hmm
      rw [List.mem_map] at hr'
      obtain ⟨r₀, hr₀, rfl⟩ := hr'
      unfold get_away_fixture at hmm
      rw [List.mem_map] at hmm
      obtain ⟨mm₀, hmm₀, rfl⟩ := hmm
      exact hP mm₀ (hprev r₀ hr₀ mm₀ hmm₀)
    rcases List.mem_append.mp hr with hr | hr
    · exact hnext round hr
    · exact ih (prev.map get_away_fixture) hnext round hr

theorem create_fixture_sides_ne (c : ℕ → Bool) (a : List Team) (hnd : a.Nodup)
    {mm : Match} (hmm : mm ∈ (create_fixture c (a.map some)).1) :
    mm.home_team ≠ mm.away_team := by
  unfold create_fixture at hmm
  obtain ⟨t₁, t₂, hpair, hm⟩ := mem_createFixtureGo hmm
  rw [zipHalves_map_some] at hpair
  rw [List.mem_map] at hpair
  obtain ⟨⟨p₁, p₂⟩, hpz, hpe⟩ := hpair
  have hp₁ : p₁ = t₁ := by
    have := congrArg Prod.fst hpe
    simpa using this
  have hp₂ : p₂ = t₂ := by
    have := congrArg Prod.snd hpe
    simpa using this
  subst hp₁
  subst hp₂
  have hmem := List.of_mem_zip hpz
  have h₁ : p₁ ∈ a.take ((a.length + 1) / 2) := hmem.1
  have h₂ : p₂ ∈ a.drop ((a.length + 1) / 2) := by
    have := hmem.2
    rwa [List.mem_reverse] at this
  have hsplit : a.take ((a.length + 1) / 2) ++ a.drop ((a.length + 1) / 2) = a :=
    List.take_append_drop _ a
  have hnd' : (a.take ((a.length + 1) / 2) ++ a.drop ((a.length + 1) / 2)).Nodup := by
    rwa [hsplit]
  have hdisj := (List.nodup_append.mp hnd').2.2
  have hne : p₁ ≠ p₂ := fun he => hdisj h₁ (he ▸ h₂)
  rcases hm with rfl | rfl
  · exact hne
  · exact hne.symm

/-- C9 amended: the `Match` model itself does not enforce distinct sides (see
the counterexample), but the schedule never produces a degenerate match: on a
duplicate-free team list every match of every round of `League.fixtures`
(any iteration count) has distinct home and away contestants, and
`get_away_match` preserves that distinctness. -/
theorem schedule_sides_distinct (ts : List Team) (c : ℕ → Bool) (iterations : ℕ)
    (hnd : ts.Nodup) :
    (∀ round ∈ league_fixtures c (ts.map some) iterations, ∀ mm ∈ round,
      mm.home_team ≠ mm.away_team) ∧
    (∀ mm : Match, mm.home_team ≠ mm.away_team →
      mm.get_away_match.home_team ≠ mm.get_away_match.away_team) := by
  constructor
  · have hfirst : ∀ round ∈ firstIteration c (arrangements (ts.map some)),
        ∀ mm ∈ round, mm.home_team ≠ mm.away_team := by
      intro round hr mm hmm
      obtain ⟨c', a, ha, rfl⟩ := mem_firstIteration hr
      cases ts with
      | nil =>
        unfold arrangements at ha
        simp at ha
      | cons t₀ q =>
        rw [arrangements_cons, List.mem_map] at ha
        obtain ⟨r, hrr, rfl⟩ := ha
        have hnda : (t₀ :: q.rotate r).Nodup := by
          have hpermts : (t₀ :: q.rotate r).Perm (t₀ :: q) :=
            (List.rotate_perm q r).cons t₀
          exact hpermts.nodup_iff.mpr hnd
        exact create_fixture_sides_ne c' (t₀ :: q.rotate r) hnda hmm
    intro round hr mm hmm
    unfold league_fixtures at hr
    rcases List.mem_append.mp hr with hr | hr
    · exact hfirst round hr mm hmm
    · refine extraIterations_preserve (fun m₀ => m₀.home_team ≠ m₀.away_team)
        (fun m₀ h => h.symm) (iterations - 1) _ hfirst round hr mm hmm
  · intro mm h
    exact h.symm

/-- Witness for C9's amended theorem: applying it to the concrete example
match shows the swapped match keeps distinct sides. -/
theorem schedule_sides_distinct_witness :
    matchAB.get_away_match.home_team ≠ matchAB.get_away_match.away_team :=
  (schedule_sides_distinct [teamA, teamB] (fun _ => false) 1 (by decide)).2
    matchAB (by decide)

end Footballsim
